import Mathlib

/-!
Shallow embedding of the dynamic route discovery and hot reload engine
(`src/core/index.ts`) of the ergoroute repository.

Filesystem paths are modelled as lists of path segments (`List String`);
the string a JS API would see is recovered with `joinSlash`.  JS string
operations used by the source (`String.prototype.startsWith`, `split("/")`,
`Array.prototype.join("/")`, `path.join`, `path.basename`, `path.dirname`)
are modelled by executable Lean functions over `List Char` / `List String`.
-/

/-- Model of one lowercase ASCII letter, the character class `[a-z]` of the
route-file regex `^(.+?)\.([a-z]+)\.ts$`. -/
def isLowerAlpha (c : Char) : Bool :=
  'a' ≤ c && c ≤ 'z'

/-- JS `name.startsWith("_")`: the ignore-marker test used both by the
watcher ignore predicate and by `scanDirectory`. -/
def startsWithUnderscore (s : String) : Bool :=
  match s.data with
  | '_' :: _ => true
  | _ => false

/-- JS `s.startsWith(pre)` on whole strings: raw character-prefix test,
exactly as used by `handleDirectoryRemoval` / `rebuildDirectoryRoutes`. -/
def jsStartsWith (s pre : String) : Bool :=
  pre.data.isPrefixOf s.data

/-- JS `Array.prototype.join("/")` over path segments. -/
def joinSlash : List String → String
  | [] => ""
  | [s] => s
  | s :: rest => s ++ "/" ++ joinSlash rest

/-- The string a JS path variable holds for a segment-list path. -/
def renderPath (p : List String) : String :=
  joinSlash p

/-- JS `s.split("/")` on character lists. -/
def splitSlashChars : List Char → List (List Char)
  | [] => [[]]
  | c :: rest =>
    let r := splitSlashChars rest
    if c = '/' then [] :: r
    else
      match r with
      | [] => [[c]]
      | h :: t => (c :: h) :: t

/-- JS `s.split("/")`. -/
def splitSlash (s : String) : List String :=
  (splitSlashChars s.data).map (fun l => String.mk l)

/-- `path.join(a, b)` / `path.posix.join(a, b)` restricted to the shapes the
engine produces (no `..`, no internal double slashes): empty parts are
dropped, two empty parts give `"."`, and a root `"/"` left part does not
duplicate its slash. -/
def pathJoin (a b : String) : String :=
  if a = "" then (if b = "" then "." else b)
  else if b = "" then a
  else if a = "/" then "/" ++ b
  else a ++ "/" ++ b

/-- The group-directory rewrite of `scanDirectory` / `parseRouteFile`:
`name.match(/^\((.*?)\)$/)` keeps the text between the outer parentheses
when the segment is fully parenthesized, and leaves it unchanged otherwise. -/
def stripGroup (s : String) : String :=
  match s.data with
  | '(' :: rest =>
    if rest.getLast? = some ')' then String.mk rest.dropLast else s
  | _ => s

/-- `path.basename` of a segment-list path. -/
def basename (p : List String) : String :=
  p.getLastD ""

/-- The filename grammar of `parseRouteFile`: the JS regex
`^(.+?)\.([a-z]+)\.ts$`.  Because the method group `[a-z]+` cannot contain
a dot, a filename matches exactly when it ends in `".ts"` and the segment
between the last two dots is a nonempty run of lowercase letters with a
nonempty remainder in front; the captures are that remainder and that run.
Implemented on the reversed character list. -/
def parseRouteFileName (fname : String) : Option (String × String) :=
  match fname.data.reverse with
  | c1 :: c2 :: c3 :: revBody =>
    if c1 = 's' ∧ c2 = 't' ∧ c3 = '.' then
      if (revBody.takeWhile (fun c => !(c == '.'))).length < revBody.length then
        if (revBody.drop ((revBody.takeWhile (fun c => !(c == '.'))).length + 1)).reverse ≠ [] ∧
            revBody.takeWhile (fun c => !(c == '.')) ≠ [] ∧
            (revBody.takeWhile (fun c => !(c == '.'))).all isLowerAlpha then
          some
            (String.mk ((revBody.drop ((revBody.takeWhile (fun c => !(c == '.'))).length + 1)).reverse),
             String.mk ((revBody.takeWhile (fun c => !(c == '.'))).reverse))
        else none
      else none
    else none
  | _ => none

/-- `RouteExpectations` of the source: both fields optional. -/
structure RouteExpectations where
  params : Option (List String)
  bodyExpected : Option Bool
deriving DecidableEq

/-- `RouteDefinition` of the source.  `handlerPath` and middleware entries
are segment-list paths; `path` and `method` are the strings the code
computes. -/
structure RouteDefinition where
  path : String
  method : String
  handlerPath : List String
  middlewares : List (List String)
  params : Option (List String)
  bodyExpected : Option Bool
deriving DecidableEq

/-- The `expectationsCache` map (directory path to expectations). -/
abbrev ExpCache := List (List String × RouteExpectations)

/-- The `routes` map (handler file path to route definition). -/
abbrev RouteTable := List (List String × RouteDefinition)

/-- Association lookup, first binding wins (JS `Map.get`). -/
def cacheGet : ExpCache → List String → Option RouteExpectations
  | [], _ => none
  | (k, v) :: rest, key => if k = key then some v else cacheGet rest key

/-- JS `Map.set` on the expectations cache: replace in place or append. -/
def cacheSet (c : ExpCache) (k : List String) (v : RouteExpectations) : ExpCache :=
  if c.any (fun e => e.1 = k) then
    c.map (fun e => if e.1 = k then (k, v) else e)
  else c ++ [(k, v)]

/-- JS `Map.delete` on the expectations cache. -/
def cacheDelete (c : ExpCache) (k : List String) : ExpCache :=
  c.filter (fun e => e.1 ≠ k)

/-- JS `Map.get` on the route table. -/
def lookupTable : RouteTable → List String → Option RouteDefinition
  | [], _ => none
  | (k, v) :: rest, key => if k = key then some v else lookupTable rest key

/-- JS `Map.has` on the route table. -/
def tableHas : RouteTable → List String → Bool
  | [], _ => false
  | (k, _) :: rest, key => k = key || tableHas rest key

/-- JS `Map.set` on the route table. -/
def tableSet (t : RouteTable) (k : List String) (v : RouteDefinition) : RouteTable :=
  if tableHas t k then
    t.map (fun e => if e.1 = k then (k, v) else e)
  else t ++ [(k, v)]

/-- JS `Map.delete` on the route table. -/
def tableDelete (t : RouteTable) (k : List String) : RouteTable :=
  t.filter (fun e => e.1 ≠ k)

/-!
Filesystem model.  A node is either a file or a directory.  A file carries
the outcome of `require(path).default` when the file is loaded as an
expectations module (`none` models a module whose load throws); for
handler and middleware files the payload is irrelevant.  A directory
carries a readability flag: `readdirSync` on an unreadable directory
throws.  Directory entry lists are a dedicated mutual inductive so that
mutual structural recursion over the tree is available.
-/

mutual
inductive FSNode where
  | file (expLoad : Option RouteExpectations)
  | dir (readable : Bool) (entries : FSEntries)
deriving DecidableEq

inductive FSEntries where
  | nil
  | cons (name : String) (node : FSNode) (rest : FSEntries)
deriving DecidableEq
end

/-- First entry with the given name (real directories have unique names). -/
def findEntry : FSEntries → String → Option FSNode
  | .nil, _ => none
  | .cons n node rest, name => if n = name then some node else findEntry rest name

/-- Resolve a segment-list path against the tree. -/
def lookupFS : List String → FSNode → Option FSNode
  | [], n => some n
  | _ :: _, .file _ => none
  | name :: rest, .dir _ es =>
    match findEntry es name with
    | some child => lookupFS rest child
    | none => none

/-- `fs.existsSync` on a segment-list path. -/
def existsFS (fs : FSNode) (p : List String) : Bool :=
  (lookupFS p fs).isSome

/-!
`parseRouteFile` of the source.  The ancestor-middleware walk of
`parseRouteFile` is

    let parentDir = path.dirname(filePath)
    while (parentDir !== this.config.sourceDirectory && parentDir !== ".") {
      parentDir = path.dirname(parentDir)
      const parentMiddleware = path.join(parentDir, "middleware.ts")
      if (fs.existsSync(parentMiddleware)) middlewares.push(parentMiddleware)
    }

i.e. it steps up first and checks afterwards, so the directory reached
when the loop condition next fails (the source root) has already had its
`middleware.ts` checked and collected.  `path.dirname` is `List.dropLast`
on segment lists; the empty path plays the role of `"."`.  The loop is
modelled with fuel equal to the starting path length, which is exactly the
number of `dropLast` steps available. -/
def ancestorMWs (fs : FSNode) (srcDir : List String) : Nat → List String → List (List String)
  | 0, _ => []
  | fuel + 1, d =>
    if d = srcDir ∨ d = [] then []
    else
      let p := d.dropLast
      let mw := p ++ ["middleware.ts"]
      (if existsFS fs mw then [mw] else []) ++ ancestorMWs fs srcDir fuel p

/-- The `!basePath` branch of `parseRouteFile`: recompute the base path from
`path.relative(sourceDirectory, path.dirname(filePath))`, prefix `"/"`, and
strip parenthesized groups segment-wise.  The call sites only reach this
with the file's directory inside the source root; `path.relative` is then
the suffix after the root. -/
def computeBasePath (srcDir dirOfFile : List String) : String :=
  let rel := if srcDir.isPrefixOf dirOfFile then dirOfFile.drop srcDir.length else dirOfFile
  let bp := "/" ++ joinSlash rel
  joinSlash ((splitSlash bp).map stripGroup)

/-- `parseRouteFile(filePath, basePath, localMiddleware, expectations)`.
The matched method group is already lowercase, so the source's
`method.toLowerCase()` is the identity.  `route.params` is set only when
`expectations` is non-null and carries a `params` array, `route.bodyExpected`
only when it carries a non-undefined `bodyExpected`. -/
def parseRouteFile (fs : FSNode) (srcDir : List String) (filePath : List String)
    (basePath : String) (localMiddleware : Option (List String))
    (expectations : Option RouteExpectations) : Option RouteDefinition :=
  match parseRouteFileName (basename filePath) with
  | none => none
  | some (fileName, method) =>
    let dirOfFile := filePath.dropLast
    let bp := if basePath = "" then computeBasePath srcDir dirOfFile else basePath
    let routePath := if fileName = "index" then bp else pathJoin bp fileName
    let mws :=
      (match localMiddleware with
       | some m => [m]
       | none => []) ++ ancestorMWs fs srcDir dirOfFile.length dirOfFile
    some {
      path := routePath
      method := method
      handlerPath := filePath
      middlewares := mws
      params := expectations.bind (fun e => e.params)
      bodyExpected := expectations.bind (fun e => e.bodyExpected) }

/-- JS `name.endsWith(".ts")`. -/
def endsWithTs (s : String) : Bool :=
  ['.', 't', 's'].isSuffixOf s.data

/-!
`scanDirectory` of the source, as a pair of mutually recursive functions:
`scanNode` models one call of `scanDirectory` on a resolved node (the
existence check of the caller already succeeded) and `scanEntries` models
the `for (const entry of entries)` loop.  A thrown error is `Except.error`;
the source's outer `catch` logs and rethrows, so an error from a recursive
call aborts the whole scan.  The expectations cache is threaded through and
is returned even on the error path, matching the in-place mutation of the
source.  The underscore skip happens before the file/directory split in the
source; here it is duplicated into both top-level patterns, which is
equivalent because it only looks at the entry name.
-/

mutual
def scanNode (fs : FSNode) (srcDir : List String) :
    FSNode → List String → String → ExpCache →
    Except Unit (List RouteDefinition) × ExpCache
  | .file _, _, _, cache => (.error (), cache)
  | .dir false _, _, _, cache => (.error (), cache)
  | .dir true entries, dirPath, basePath, cache =>
    let mwPath := dirPath ++ ["middleware.ts"]
    let localMW : Option (List String) := if existsFS fs mwPath then some mwPath else none
    let loaded : Option RouteExpectations × ExpCache :=
      match lookupFS (dirPath ++ ["expectations.ts"]) fs with
      | some (.file (some e)) => (some e, cacheSet cache dirPath e)
      | some _ => (none, cache)
      | none => (none, cache)
    let exps :=
      match loaded.1 with
      | some e => some e
      | none => cacheGet loaded.2 dirPath
    scanEntries fs srcDir entries dirPath basePath localMW exps loaded.2

def scanEntries (fs : FSNode) (srcDir : List String) :
    FSEntries → List String → String → Option (List String) →
    Option RouteExpectations → ExpCache →
    Except Unit (List RouteDefinition) × ExpCache
  | .nil, _, _, _, _, cache => (.ok [], cache)
  | .cons name (.dir rd es) rest, dirPath, basePath, localMW, exps, cache =>
    if startsWithUnderscore name then
      scanEntries fs srcDir rest dirPath basePath localMW exps cache
    else
      let newBase := pathJoin basePath (stripGroup name)
      match scanNode fs srcDir (.dir rd es) (dirPath ++ [name]) newBase cache with
      | (.error e, cache2) => (.error e, cache2)
      | (.ok sub, cache2) =>
        match scanEntries fs srcDir rest dirPath basePath localMW exps cache2 with
        | (.error e, cache3) => (.error e, cache3)
        | (.ok more, cache3) => (.ok (sub ++ more), cache3)
  | .cons name (.file _) rest, dirPath, basePath, localMW, exps, cache =>
    if startsWithUnderscore name then
      scanEntries fs srcDir rest dirPath basePath localMW exps cache
    else if endsWithTs name then
      if name = "middleware.ts" ∨ name = "expectations.ts" then
        scanEntries fs srcDir rest dirPath basePath localMW exps cache
      else
        match scanEntries fs srcDir rest dirPath basePath localMW exps cache with
        | (.error e, cache2) => (.error e, cache2)
        | (.ok more, cache2) =>
          match parseRouteFile fs srcDir (dirPath ++ [name]) basePath localMW exps with
          | some r => (.ok (r :: more), cache2)
          | none => (.ok more, cache2)
    else
      scanEntries fs srcDir rest dirPath basePath localMW exps cache
end

/-- One call of `scanDirectory(dirPath, basePath)` from the outside: a
non-existent directory is non-fatal and yields the empty list. -/
def scanFS (fs : FSNode) (srcDir dirPath : List String) (basePath : String)
    (cache : ExpCache) : Except Unit (List RouteDefinition) × ExpCache :=
  match lookupFS dirPath fs with
  | none => (.ok [], cache)
  | some node => scanNode fs srcDir node dirPath basePath cache

/-!
Change reactor (`handleFileChange`, `handleFileRemoval`,
`handleDirectoryRemoval`, `rebuildDirectoryRoutes`, `buildRoutes`).  The
observable server interactions are recorded as a list of effects:
`applySingle r` is `applyRouteToApp(route)` against the live instance and
`fullRebuild` is `rebuildApp()` (stop the running server, start a new one).
Each handler receives the filesystem snapshot current when its event is
processed.
-/

/-- Observable server effects of one reaction. -/
inductive Effect where
  | applySingle (r : RouteDefinition)
  | fullRebuild
deriving DecidableEq

/-- The mutable state owned by one route-builder instance that the claims
talk about: the route table and the expectations cache. -/
structure BuilderState where
  routes : RouteTable
  expCache : ExpCache
deriving DecidableEq

/-- The state of a freshly constructed builder. -/
def initialState : BuilderState :=
  { routes := [], expCache := [] }

/-- The deletion loop of `handleDirectoryRemoval` / `rebuildDirectoryRoutes`:
drop every table entry whose rendered handler path has the rendered
directory path as a raw string prefix (`filePath.startsWith(dirPath)`). -/
def removeAllUnderRaw (t : RouteTable) (dirPath : List String) : RouteTable :=
  t.filter (fun e => !(jsStartsWith (renderPath e.1) (renderPath dirPath)))

/-- `rebuildDirectoryRoutes(dirPath)`: delete the raw-prefix matches, rescan
the directory with an empty base path, merge the results, then rebuild the
server.  When the rescan throws, the exception propagates before
`rebuildApp()` is reached: the deletions stay applied, the cache keeps the
mutations made so far, and no rebuild happens. -/
def rebuildDirectoryRoutes (fs : FSNode) (srcDir : List String) (st : BuilderState)
    (dirPath : List String) : BuilderState × List Effect :=
  let t1 := removeAllUnderRaw st.routes dirPath
  match scanFS fs srcDir dirPath "" st.expCache with
  | (.error _, cache2) => ({ routes := t1, expCache := cache2 }, [])
  | (.ok rs, cache2) =>
    ({ routes := rs.foldl (fun t r => tableSet t r.handlerPath r) t1
       expCache := cache2 }, [.fullRebuild])

/-- `handleFileChange(filePath)` (both `add` and `change` events). -/
def handleFileChange (fs : FSNode) (srcDir : List String) (st : BuilderState)
    (filePath : List String) : BuilderState × List Effect :=
  if basename filePath = "middleware.ts" then
    rebuildDirectoryRoutes fs srcDir st filePath.dropLast
  else if basename filePath = "expectations.ts" then
    rebuildDirectoryRoutes fs srcDir
      { st with expCache := cacheDelete st.expCache filePath.dropLast }
      filePath.dropLast
  else
    match parseRouteFile fs srcDir filePath "" none none with
    | some r => ({ st with routes := tableSet st.routes filePath r }, [.applySingle r])
    | none => (st, [])

/-- `handleFileRemoval(filePath)`: only a path with a registered route
triggers a deletion plus full rebuild. -/
def handleFileRemoval (st : BuilderState) (filePath : List String) :
    BuilderState × List Effect :=
  if tableHas st.routes filePath then
    ({ st with routes := tableDelete st.routes filePath }, [.fullRebuild])
  else (st, [])

/-- `handleDirectoryRemoval(dirPath)`. -/
def handleDirectoryRemoval (st : BuilderState) (dirPath : List String) :
    BuilderState × List Effect :=
  ({ st with routes := removeAllUnderRaw st.routes dirPath }, [.fullRebuild])

/-- `buildRoutes()`: full scan of the source root; the surrounding
`try/catch` swallows a scan error, in which case the table is left as it
was (the `clear()` sits after the scan) and no rebuild happens. -/
def buildRoutes (fs : FSNode) (srcDir : List String) (st : BuilderState) :
    BuilderState × List Effect :=
  match scanFS fs srcDir srcDir "" st.expCache with
  | (.error _, cache2) => ({ st with expCache := cache2 }, [])
  | (.ok rs, cache2) =>
    ({ routes := rs.foldl (fun t r => tableSet t r.handlerPath r) []
       expCache := cache2 }, [.fullRebuild])

/-- Watcher events, as delivered by the file watch service. -/
inductive FSEvent where
  | add (p : List String)
  | change (p : List String)
  | unlink (p : List String)
  | unlinkDir (p : List String)
deriving DecidableEq

/-- The path an event carries. -/
def eventPath : FSEvent → List String
  | .add p => p
  | .change p => p
  | .unlink p => p
  | .unlinkDir p => p

/-- Whether an event is one of the three file-level events. -/
def isFileEvent : FSEvent → Bool
  | .unlinkDir _ => false
  | _ => true

/-- Dispatch of `setupWatchers`. -/
def step (fs : FSNode) (srcDir : List String) (st : BuilderState) :
    FSEvent → BuilderState × List Effect
  | .add p => handleFileChange fs srcDir st p
  | .change p => handleFileChange fs srcDir st p
  | .unlink p => handleFileRemoval st p
  | .unlinkDir p => handleDirectoryRemoval st p

/-- Process a sequence of events, each with the filesystem snapshot current
at its delivery. -/
def runEvents (srcDir : List String) (evs : List (FSNode × FSEvent))
    (st : BuilderState) : BuilderState :=
  evs.foldl (fun s pr => (step pr.1 srcDir s pr.2).1) st

/-!
Configuration (`Config`, `defaultConfig` and the constructor's
`{...defaultConfig, ...config}` merge).  Absent optional fields are `none`.
-/

/-- The `Config` interface of `src/core/index.ts`. -/
structure Config where
  sourceDirectory : Option String
  basePath : Option String
  cacheable : Option Bool
  port : Option Nat
deriving DecidableEq

/-- `defaultConfig` of `src/core/index.ts` (the comment in the source notes
`basePath` was changed from `"/"` to `"/api"`). -/
def defaultConfig : Config :=
  { sourceDirectory := some "./src"
    basePath := some "/api"
    cacheable := some true
    port := some 3000 }

/-- The object spread `{...a, ...b}` on configs: a present field of `b`
wins. -/
def mergeConfig (a b : Config) : Config :=
  { sourceDirectory := match b.sourceDirectory with | some v => some v | none => a.sourceDirectory
    basePath := match b.basePath with | some v => some v | none => a.basePath
    cacheable := match b.cacheable with | some v => some v | none => a.cacheable
    port := match b.port with | some v => some v | none => a.port }

/-- The effective configuration when the caller passes no configuration:
the constructor's default parameter is `defaultConfig`, which is then
spread over `defaultConfig` itself. -/
def effectiveConfigNoUser : Config :=
  mergeConfig defaultConfig defaultConfig

/-!
Specification-side definitions used to state the amended claims and the
invariants.
-/

/-- Fuel-driven helper for `chainOf`. -/
def chainGo (sd : List String) : Nat → List String → List (List String)
  | 0, _ => []
  | _ + 1, [] => []
  | n + 1, r => (sd ++ r.dropLast) :: chainGo sd n r.dropLast

/-- The proper ancestors of the directory `sd ++ rest`, nearest first, down
to and including the source root `sd` itself. -/
def chainOf (sd rest : List String) : List (List String) :=
  chainGo sd rest.length rest

/-- The `middleware.ts` declarations found along `chainOf sd rest`,
nearest ancestor first. -/
def mwChain (fs : FSNode) (sd rest : List String) : List (List String) :=
  (chainOf sd rest).filterMap fun p =>
    if existsFS fs (p ++ ["middleware.ts"]) then some (p ++ ["middleware.ts"]) else none

/-- Modelled from the spec: the fixed recognized lowercase HTTP method
token set the specification's claims refer to (`get, post, put, delete,
patch, …`); the source itself contains no such allow-list. -/
def recognizedMethods : List String :=
  ["get", "post", "put", "delete", "patch", "head", "options"]

/-- A path segment that does not start with the ignore marker. -/
def cleanSeg (s : String) : Bool :=
  !(startsWithUnderscore s)

/-- All segments clean. -/
def cleanSegs (l : List String) : Bool :=
  l.all cleanSeg

/-- A table key that lies under the source root with no ignored segment
beneath it. -/
def keyOk (sd k : List String) : Prop :=
  ∃ rest, k = sd ++ rest ∧ cleanSegs rest = true

/-- Every key of the table is under the source root and underscore-free
beneath it. -/
def tableOk (sd : List String) (t : RouteTable) : Prop :=
  ∀ e ∈ t, keyOk sd e.1

/-- An event the watcher can actually deliver: its path is inside the
watched source root, the suffix beneath the root has no segment starting
with `_` (the watcher's ignore predicate filters those), and file-level
events are about entries strictly inside the root. -/
def admissible (sd : List String) (ev : FSEvent) : Prop :=
  ∃ rest, eventPath ev = sd ++ rest ∧ cleanSegs rest = true ∧
    (isFileEvent ev = true → rest ≠ [])

mutual
/-- Every directory in the tree is readable. -/
def nodeAllReadable : FSNode → Bool
  | .file _ => true
  | .dir r es => r && entriesAllReadable es

/-- Every directory below these entries is readable. -/
def entriesAllReadable : FSEntries → Bool
  | .nil => true
  | .cons _ node rest => nodeAllReadable node && entriesAllReadable rest
end

/-!
Concrete filesystem and state fixtures used by counterexamples and
witnesses.
-/

/-- A tree `src/(admin)/users/list.get.ts` rooted at the working
directory. -/
def fsGroupExample : FSNode :=
  .dir true (.cons "src"
    (.dir true (.cons "(admin)"
      (.dir true (.cons "users"
        (.dir true (.cons "list.get.ts" (.file none) .nil)) .nil)) .nil)) .nil)

/-- A tree `src/middleware.ts`, `src/a/middleware.ts`, `src/a/f.get.ts`. -/
def fsMwExample : FSNode :=
  .dir true (.cons "src"
    (.dir true (.cons "middleware.ts" (.file none)
      (.cons "a"
        (.dir true (.cons "middleware.ts" (.file none)
          (.cons "f.get.ts" (.file none) .nil))) .nil))) .nil)

/-- A tree `src/ok.get.ts` plus an unreadable subdirectory `src/bad`. -/
def fsUnreadableExample : FSNode :=
  .dir true (.cons "src"
    (.dir true (.cons "ok.get.ts" (.file none)
      (.cons "bad" (.dir false .nil) .nil))) .nil)

/-- A tree `src/expectations.ts` (whose load throws) plus a sibling
handler `src/list.get.ts`; every directory readable. -/
def fsBadExpExample : FSNode :=
  .dir true (.cons "src"
    (.dir true (.cons "expectations.ts" (.file none)
      (.cons "list.get.ts" (.file none) .nil))) .nil)

/-- A tree holding only `src/list.get.ts`. -/
def fsSmallExample : FSNode :=
  .dir true (.cons "src"
    (.dir true (.cons "list.get.ts" (.file none) .nil)) .nil)

/-- The route the engine stores for `a/bc/x.get.ts`. -/
def routeUnderBc : RouteDefinition :=
  { path := "/bc/x"
    method := "get"
    handlerPath := ["a", "bc", "x.get.ts"]
    middlewares := []
    params := none
    bodyExpected := none }

/-- A builder state whose only route lives under `a/bc`, a sibling of the
directory `a/b`. -/
def stateWithBc : BuilderState :=
  { routes := [(["a", "bc", "x.get.ts"], routeUnderBc)], expCache := [] }

/-!
Theorems.
-/

/-- C1 (counterexample): scanning `src/(admin)/users/list.get.ts` yields the
route path `"admin/users/list"`: it contains the segment `"admin"` for the
parenthesized group directory and differs from the `/users/list` the claim
requires. -/
theorem group_dir_elision_counterexample :
    (scanFS fsGroupExample ["src"] ["src"] "" []).1 =
      .ok [{ path := "admin/users/list", method := "get",
             handlerPath := ["src", "(admin)", "users", "list.get.ts"],
             middlewares := [], params := none, bodyExpected := none }]
    ∧ "admin" ∈ splitSlash "admin/users/list"
    ∧ "admin/users/list" ≠ "/users/list" :=
  ⟨rfl, by decide, by decide⟩

/-- C2 (code bug): with the route table holding only the handler
`a/bc/x.get.ts`, the `unlinkDir` reaction for directory `a/b` removes that
route, because the deletion loop matches with a raw string `startsWith`
(`"a/bc/x.get.ts".startsWith("a/b")` is true) instead of at a path-segment
boundary. -/
theorem unlinkDir_raw_prefix_removes_sibling :
    tableHas stateWithBc.routes ["a", "bc", "x.get.ts"] = true
    ∧ jsStartsWith (renderPath ["a", "bc", "x.get.ts"]) (renderPath ["a", "b"]) = true
    ∧ (handleDirectoryRemoval stateWithBc ["a", "b"]).1.routes = [] :=
  ⟨by decide, by decide, by decide⟩

/-- C3 (counterexample): in the tree `src/middleware.ts`,
`src/a/middleware.ts`, `src/a/f.get.ts`, the scan gives the route of `f` the
chain `[src/a/middleware.ts, src/middleware.ts]` — the configured source
root's declaration is included, contradicting the claimed exclusion — and
the incremental single-file path gives it `[src/middleware.ts]`, omitting
the file's own directory's declaration, contradicting the claimed
own-directory-first ordering. -/
theorem middleware_chain_counterexample :
    (scanFS fsMwExample ["src"] ["src"] "" []).1 =
      .ok [{ path := "a/f", method := "get",
             handlerPath := ["src", "a", "f.get.ts"],
             middlewares := [["src", "a", "middleware.ts"], ["src", "middleware.ts"]],
             params := none, bodyExpected := none }]
    ∧ parseRouteFile fsMwExample ["src"] ["src", "a", "f.get.ts"] "" none none =
        some { path := "/a/f", method := "get",
               handlerPath := ["src", "a", "f.get.ts"],
               middlewares := [["src", "middleware.ts"]],
               params := none, bodyExpected := none }
    ∧ ([["src", "a", "middleware.ts"], ["src", "middleware.ts"]] :
         List (List String)) ≠ [["src", "a", "middleware.ts"]]
    ∧ ([["src", "middleware.ts"]] : List (List String)) ≠ [["src", "a", "middleware.ts"]] :=
  ⟨rfl, rfl, by decide, by decide⟩

/-- C4 (counterexample): the filename `list.zzz.ts`, whose method token
`zzz` is a lowercase alphabetic word outside the recognized method set,
parses to `some ("list", "zzz")` rather than the `none` the claim
requires: the source's regex checks only `[a-z]+`, with no allow-list. -/
theorem filename_method_counterexample :
    parseRouteFileName "list.zzz.ts" = some ("list", "zzz")
    ∧ "zzz" ∉ recognizedMethods :=
  ⟨by decide, by decide⟩

/-- C6 (counterexample): in a tree whose subdirectory `src/bad` is
unreadable, the scan of `src` aborts with the rethrown error — the sibling
route `src/ok.get.ts` is lost and the error propagates out of the scan,
contradicting the claimed isolation of per-entry read errors. -/
theorem scan_error_propagates_counterexample :
    (scanFS fsUnreadableExample ["src"] ["src"] "" []).1 = .error () :=
  rfl

/-- C7 (counterexample): the effective configuration obtained when the
caller passes nothing has `basePath = "/api"`, not the documented `"/"`. -/
theorem default_basepath_counterexample :
    effectiveConfigNoUser.basePath = some "/api"
    ∧ some "/api" ≠ (some "/" : Option String) :=
  ⟨by decide, by decide⟩

/-- C7 (amended): with no user configuration the effective configuration is
exactly `defaultConfig`: `sourceDirectory = "./src"`, `basePath = "/api"`,
`cacheable = true`, `port = 3000`. -/
theorem default_config_values :
    effectiveConfigNoUser = defaultConfig
    ∧ defaultConfig.sourceDirectory = some "./src"
    ∧ defaultConfig.basePath = some "/api"
    ∧ defaultConfig.cacheable = some true
    ∧ defaultConfig.port = some 3000 :=
  ⟨by decide, by decide, by decide, by decide, by decide⟩

/-- Helper: the group regex strips exactly the outer parentheses. -/
theorem stripGroup_paren (X : String) : stripGroup ("(" ++ X ++ ")") = X := by
  have hdata : ("(" ++ X ++ ")").data = '(' :: (X.data ++ [')']) := by
    simp [String.data_append]
  unfold stripGroup
  rw [hdata]
  simp [List.getLast?_concat, List.dropLast_concat]

/-- Helper: a parenthesized name is never an ignored entry. -/
theorem startsWithUnderscore_paren (X : String) :
    startsWithUnderscore ("(" ++ X ++ ")") = false := by
  have hdata : ("(" ++ X ++ ")").data = '(' :: (X.data ++ [')']) := by
    simp [String.data_append]
  unfold startsWithUnderscore
  rw [hdata]
  rfl

/-- C1 (amended): for every inner name `X`, subtree, base path and cache,
scanning a directory whose sole entry is the group directory `(X)` is the
same as scanning the subtree with `X` joined onto the base path: the
parentheses are stripped but the inner name is appended to the URL path
(and the group directory name itself still appears in handler file
paths). -/
theorem group_dir_appends_inner_name (fs : FSNode) (srcDir : List String) (X : String)
    (rd : Bool) (es : FSEntries) (dirPath : List String) (b : String)
    (lm : Option (List String)) (ex : Option RouteExpectations) (c : ExpCache) :
    scanEntries fs srcDir (.cons ("(" ++ X ++ ")") (.dir rd es) .nil) dirPath b lm ex c
      = scanNode fs srcDir (.dir rd es) (dirPath ++ ["(" ++ X ++ ")"]) (pathJoin b X) c := by
  rw [scanEntries]
  rw [startsWithUnderscore_paren, stripGroup_paren]
  simp only [if_neg (by simp : ¬ false = true)]
  rcases h : scanNode fs srcDir (.dir rd es) (dirPath ++ ["(" ++ X ++ ")"]) (pathJoin b X) c with ⟨res, c2⟩
  cases res with
  | error e => simp [h]
  | ok sub => simp [h, scanEntries]

/-- Helper: association lookup across an appended table. -/
theorem lookupTable_append (t s : RouteTable) (key : List String) :
    lookupTable (t ++ s) key =
      match lookupTable t key with
      | some v => some v
      | none => lookupTable s key := by
  induction t with
  | nil => simp [lookupTable]
  | cons e rest ih =>
    rcases e with ⟨k, v⟩
    by_cases h : k = key <;> simp [lookupTable, h, ih]

/-- Helper: a key the table does not have looks up to nothing. -/
theorem lookupTable_none_of_not_has (t : RouteTable) (k : List String)
    (h : tableHas t k = false) : lookupTable t k = none := by
  induction t with
  | nil => simp [lookupTable]
  | cons e rest ih =>
    rcases e with ⟨k0, v0⟩
    simp only [tableHas, Bool.or_eq_false_iff] at h
    have hk : ¬ k0 = k := by
      intro hh
      rw [hh] at h
      simp at h
    simp [lookupTable, hk, ih h.2]

/-- Helper: the in-place replacement branch of `Map.set`, at the set key. -/
theorem lookupTable_replace_self (t : RouteTable) (k : List String) (v : RouteDefinition)
    (h : tableHas t k = true) :
    lookupTable (t.map (fun e => if e.1 = k then (k, v) else e)) k = some v := by
  induction t with
  | nil => simp [tableHas] at h
  | cons e rest ih =>
    rcases e with ⟨k0, v0⟩
    by_cases hk : k0 = k
    · subst hk
      rw [List.map_cons, if_pos (show (k0, v0).1 = k0 from rfl)]
      simp [lookupTable]
    · have h2 : tableHas rest k = true := by
        simpa [tableHas, hk] using h
      rw [List.map_cons, if_neg (show ¬ (k0, v0).1 = k from hk)]
      simp [lookupTable, hk, ih h2]

/-- Helper: the in-place replacement branch of `Map.set`, at other keys. -/
theorem lookupTable_replace_ne (t : RouteTable) (k key : List String) (v : RouteDefinition)
    (h : key ≠ k) :
    lookupTable (t.map (fun e => if e.1 = k then (k, v) else e)) key = lookupTable t key := by
  induction t with
  | nil => simp
  | cons e rest ih =>
    rcases e with ⟨k0, v0⟩
    by_cases hk : k0 = k
    · subst hk
      rw [List.map_cons, if_pos (show (k0, v0).1 = k0 from rfl)]
      simp [lookupTable, Ne.symm h, ih]
    · rw [List.map_cons, if_neg (show ¬ (k0, v0).1 = k from hk)]
      simp [lookupTable, hk, ih]

/-- Helper: `Map.set` binds the set key. -/
theorem lookupTable_set_self (t : RouteTable) (k : List String) (v : RouteDefinition) :
    lookupTable (tableSet t k v) k = some v := by
  unfold tableSet
  cases hh : tableHas t k with
  | false =>
    rw [if_neg (by simp [hh])]
    rw [lookupTable_append, lookupTable_none_of_not_has t k hh]
    simp [lookupTable]
  | true =>
    rw [if_pos (by simp [hh])]
    exact lookupTable_replace_self t k v hh

/-- Helper: `Map.set` leaves every other key unchanged. -/
theorem lookupTable_set_ne (t : RouteTable) (k key : List String) (v : RouteDefinition)
    (h : key ≠ k) :
    lookupTable (tableSet t k v) key = lookupTable t key := by
  unfold tableSet
  cases hh : tableHas t k with
  | false =>
    rw [if_neg (by simp [hh])]
    rw [lookupTable_append]
    cases hl : lookupTable t key with
    | some v0 => simp
    | none => simp [lookupTable, Ne.symm h]
  | true =>
    rw [if_pos (by simp [hh])]
    exact lookupTable_replace_ne t k key v h

/-- C5: an add/change event for a file not named `middleware.ts` or
`expectations.ts` never triggers a full rebuild (the live server is not
stopped or restarted), leaves the expectations cache and every other table
key untouched, and, when the file parses to a route, sets exactly that one
entry and applies exactly that one route to the live server; when it does
not parse, nothing at all happens. -/
theorem incremental_file_change_frame (fs : FSNode) (srcDir : List String)
    (st : BuilderState) (p : List String)
    (h1 : basename p ≠ "middleware.ts") (h2 : basename p ≠ "expectations.ts") :
    Effect.fullRebuild ∉ (handleFileChange fs srcDir st p).2
    ∧ (handleFileChange fs srcDir st p).1.expCache = st.expCache
    ∧ (∀ k, k ≠ p →
        lookupTable (handleFileChange fs srcDir st p).1.routes k = lookupTable st.routes k)
    ∧ (∀ r, parseRouteFile fs srcDir p "" none none = some r →
        lookupTable (handleFileChange fs srcDir st p).1.routes p = some r
        ∧ (handleFileChange fs srcDir st p).2 = [Effect.applySingle r])
    ∧ (parseRouteFile fs srcDir p "" none none = none →
        handleFileChange fs srcDir st p = (st, [])) := by
  unfold handleFileChange
  rw [if_neg h1, if_neg h2]
  cases hp : parseRouteFile fs srcDir p "" none none with
  | none => simp
  | some r =>
    refine ⟨by simp, by simp, ?_, ?_, by simp⟩
    · intro k hk
      simpa using lookupTable_set_ne st.routes p k r hk
    · intro r0 hr0
      rw [Option.some_inj] at hr0
      subst hr0
      simpa using lookupTable_set_self st.routes p r

/-- C10: an unlink event whose path holds no registered route leaves the
state unchanged and produces no server effect; a full rebuild happens
exactly when the removed path had a registered route, and then the only
table change is the deletion of that key. -/
theorem unlink_unknown_path_frame (st : BuilderState) (p : List String) :
    (tableHas st.routes p = false → handleFileRemoval st p = (st, []))
    ∧ (Effect.fullRebuild ∈ (handleFileRemoval st p).2 → tableHas st.routes p = true)
    ∧ (tableHas st.routes p = true →
        (handleFileRemoval st p).2 = [Effect.fullRebuild]
        ∧ (handleFileRemoval st p).1.routes = tableDelete st.routes p) := by
  unfold handleFileRemoval
  cases h : tableHas st.routes p <;> simp [h]

/-- C5 witness: changing `src/list.get.ts` in a concrete tree triggers no
full rebuild. -/
theorem incremental_file_change_frame_witness :
    Effect.fullRebuild ∉ (handleFileChange fsSmallExample ["src"] initialState ["src", "list.get.ts"]).2 :=
  (incremental_file_change_frame fsSmallExample ["src"] initialState
    ["src", "list.get.ts"] (by decide) (by decide)).1

/-- C10 witness: an unlink for an unknown path is a no-op on the initial
state. -/
theorem unlink_unknown_path_frame_witness :
    handleFileRemoval initialState ["src", "gone.get.ts"] = (initialState, []) :=
  (unlink_unknown_path_frame initialState ["src", "gone.get.ts"]).1 (by decide)

/-- Helper: the walk started at the source root itself collects nothing. -/
theorem ancestorMWs_sd (fs : FSNode) (sd : List String) (n : Nat) :
    ancestorMWs fs sd n sd = [] := by
  cases n with
  | zero => rfl
  | succ m =>
    rw [ancestorMWs]
    simp

/-- Helper: peeling the last segment off the directory suffix. -/
theorem chainOf_concat (sd ys : List String) (y : String) :
    chainOf sd (ys ++ [y]) = (sd ++ ys) :: chainOf sd ys := by
  unfold chainOf
  cases ys with
  | nil => simp [chainGo]
  | cons a l =>
    have h1 : ((a :: l) ++ [y]).length = (l.length + 1) + 1 := by simp
    rw [h1]
    rw [show (a :: l) ++ [y] = a :: (l ++ [y]) from rfl]
    rw [chainGo]
    · have h2 : (a :: (l ++ [y])).dropLast = a :: l := by
        rw [show a :: (l ++ [y]) = (a :: l) ++ [y] from rfl]
        exact List.dropLast_concat
      rw [h2]
      simp
    · simp

/-- Helper: the source's ancestor-middleware loop collects exactly the
declarations along the proper-ancestor chain of the file's directory,
nearest first, down to and including the source root. -/
theorem ancestorMWs_eq_mwChain (fs : FSNode) (sd : List String) (rest : List String) :
    ancestorMWs fs sd (sd ++ rest).length (sd ++ rest) = mwChain fs sd rest := by
  induction rest using List.reverseRecOn with
  | nil => simp [mwChain, chainOf, chainGo, ancestorMWs_sd]
  | append_singleton ys y ih =>
    have hlen : (sd ++ (ys ++ [y])).length = (sd ++ ys).length + 1 := by
      simp
      omega
    rw [hlen, ancestorMWs]
    have hne : ¬ (sd ++ (ys ++ [y]) = sd ∨ sd ++ (ys ++ [y]) = []) := by
      push_neg
      constructor
      · intro hh
        have hll := congrArg List.length hh
        simp at hll
      · simp
    rw [if_neg hne]
    have hdl : (sd ++ (ys ++ [y])).dropLast = sd ++ ys := by
      rw [← List.append_assoc]
      exact List.dropLast_concat
    rw [hdl]
    simp only [ih]
    simp only [mwChain, chainOf_concat, List.filterMap_cons]
    cases hex : existsFS fs ((sd ++ ys) ++ ["middleware.ts"]) <;> simp [hex]

/-- Helper: a parsed route keeps the file path as its key and carries the
local middleware (when passed) followed by the ancestor walk. -/
theorem parseRouteFile_fields (fs : FSNode) (sd fp : List String) (bp : String)
    (lm : Option (List String)) (ex : Option RouteExpectations) (r : RouteDefinition)
    (h : parseRouteFile fs sd fp bp lm ex = some r) :
    r.handlerPath = fp
    ∧ r.middlewares = lm.toList ++
        ancestorMWs fs sd fp.dropLast.length fp.dropLast := by
  unfold parseRouteFile at h
  cases hn : parseRouteFileName (basename fp) with
  | none =>
    rw [hn] at h
    cases h
  | some nm =>
    obtain ⟨n, m⟩ := nm
    rw [hn] at h
    simp only [Option.some_inj] at h
    subst h
    cases lm <;> exact ⟨rfl, rfl⟩

/-- C3 (amended): for a handler file whose directory is `srcDir ++ rest`,
every produced RouteDefinition's middleware chain is the passed local
declaration (the file's own directory's `middleware.ts`, which the scan
path passes when it exists) followed by the ancestor declarations nearest
first, down to **and including** the configured source root; on the
incremental single-file change path the local declaration is not passed,
so the chain is only the ancestor chain (including the root) and the
file's own directory's declaration is omitted. -/
theorem middleware_chain_characterization (fs : FSNode) (srcDir fp rest : List String)
    (hdir : fp.dropLast = srcDir ++ rest) :
    (∀ bp lm ex r, parseRouteFile fs srcDir fp bp lm ex = some r →
        r.middlewares = lm.toList ++ mwChain fs srcDir rest)
    ∧ (∀ st r, basename fp ≠ "middleware.ts" → basename fp ≠ "expectations.ts" →
        parseRouteFile fs srcDir fp "" none none = some r →
        lookupTable (handleFileChange fs srcDir st fp).1.routes fp = some r
        ∧ r.middlewares = mwChain fs srcDir rest) := by
  have key : ∀ bp lm ex r, parseRouteFile fs srcDir fp bp lm ex = some r →
      r.middlewares = lm.toList ++ mwChain fs srcDir rest := by
    intro bp lm ex r hr
    have hf := (parseRouteFile_fields fs srcDir fp bp lm ex r hr).2
    rw [hdir, ancestorMWs_eq_mwChain] at hf
    exact hf
  refine ⟨key, ?_⟩
  intro st r h1 h2 hr
  refine ⟨?_, ?_⟩
  · unfold handleFileChange
    rw [if_neg h1, if_neg h2, hr]
    simpa using lookupTable_set_self st.routes fp r
  · simpa using key "" none none r hr

/-- C3 witness: concrete instance of the characterization on
`src/a/f.get.ts` with middleware declarations in `src` and `src/a`. -/
theorem middleware_chain_characterization_witness :
    lookupTable (handleFileChange fsMwExample ["src"] initialState ["src", "a", "f.get.ts"]).1.routes
        ["src", "a", "f.get.ts"] =
      some { path := "/a/f", method := "get", handlerPath := ["src", "a", "f.get.ts"],
             middlewares := [["src", "middleware.ts"]], params := none, bodyExpected := none }
    ∧ RouteDefinition.middlewares
        { path := "/a/f", method := "get", handlerPath := ["src", "a", "f.get.ts"],
          middlewares := [["src", "middleware.ts"]], params := none, bodyExpected := none }
        = mwChain fsMwExample ["src"] ["a"] :=
  (middleware_chain_characterization fsMwExample ["src"] ["src", "a", "f.get.ts"] ["a"]
      (by decide)).2
    initialState
    { path := "/a/f", method := "get", handlerPath := ["src", "a", "f.get.ts"],
      middlewares := [["src", "middleware.ts"]], params := none, bodyExpected := none }
    (by decide) (by decide) (by rfl)

/-- Helper: a lowercase letter is not the dot separator. -/
theorem isLowerAlpha_not_dot {c : Char} (h : isLowerAlpha c = true) :
    (!(c == '.')) = true := by
  simp only [isLowerAlpha, Bool.and_eq_true, decide_eq_true_eq] at h
  simp only [Bool.not_eq_true', beq_eq_false_iff_ne, ne_eq]
  intro hc
  subst hc
  revert h
  decide

/-- Helper: `takeWhile` stops exactly at the first failing element. -/
theorem takeWhile_append_sat (p : Char → Bool) (l1 : List Char) (x : Char) (l2 : List Char)
    (h1 : ∀ c ∈ l1, p c = true) (h2 : p x = false) :
    (l1 ++ x :: l2).takeWhile p = l1 := by
  induction l1 with
  | nil => simp [List.takeWhile, h2]
  | cons a l ih =>
    have ha : p a = true := h1 a (by simp)
    simp only [List.cons_append, List.takeWhile, ha]
    exact congrArg (fun t => a :: t) (ih (fun c hc => h1 c (by simp [hc])))

/-- Helper: when `takeWhile` is proper, the list decomposes at the first
failing element. -/
theorem takeWhile_decomp (p : Char → Bool) :
    ∀ l : List Char, (l.takeWhile p).length < l.length →
      ∃ c, l = l.takeWhile p ++ c :: l.drop ((l.takeWhile p).length + 1) ∧ p c = false := by
  intro l
  induction l with
  | nil => simp
  | cons a l ih =>
    intro hlt
    cases hpa : p a with
    | false =>
      refine ⟨a, ?_, hpa⟩
      simp [List.takeWhile, hpa]
    | true =>
      simp only [List.takeWhile, hpa] at hlt ⊢
      have hlt2 : (l.takeWhile p).length < l.length := by
        simpa using hlt
      obtain ⟨c, hc1, hc2⟩ := ih hlt2
      refine ⟨c, ?_, hc2⟩
      simp only [List.length_cons, List.drop_succ_cons]
      conv_lhs => rw [hc1]
      simp

/-- C4 (amended): parsing returns `(name, method)` exactly for the
filenames `<name>.<method>.ts` with a nonempty name and a nonempty
lowercase alphabetic method token; no fixed recognized method set is
involved — any lowercase alphabetic token is admitted at parse time. -/
theorem filename_grammar_characterization :
    (∀ n m : String, n.data ≠ [] → m.data ≠ [] → m.data.all isLowerAlpha = true →
        parseRouteFileName (n ++ "." ++ m ++ ".ts") = some (n, m))
    ∧ (∀ f n m, parseRouteFileName f = some (n, m) →
        f = n ++ "." ++ m ++ ".ts" ∧ n.data ≠ [] ∧ m.data ≠ [] ∧
          m.data.all isLowerAlpha = true) := by
  constructor
  · intro n m hn hm hall
    have hdata : (n ++ "." ++ m ++ ".ts").data.reverse =
        's' :: 't' :: '.' :: (m.data.reverse ++ '.' :: n.data.reverse) := by
      simp [String.data_append]
    unfold parseRouteFileName
    rw [hdata]
    have htw : (m.data.reverse ++ '.' :: n.data.reverse).takeWhile (fun c => !(c == '.'))
        = m.data.reverse := by
      apply takeWhile_append_sat
      · intro c hc
        have hmem : c ∈ m.data := List.mem_reverse.mp hc
        exact isLowerAlpha_not_dot (by
          have := List.all_eq_true.mp hall c hmem
          simpa using this)
      · decide
    simp only [htw]
    have hdrop : (m.data.reverse ++ '.' :: n.data.reverse).drop (m.data.reverse.length + 1)
        = n.data.reverse := by
      rw [show m.data.reverse ++ '.' :: n.data.reverse
            = (m.data.reverse ++ ['.']) ++ n.data.reverse by simp]
      rw [show m.data.reverse.length + 1 = (m.data.reverse ++ ['.']).length by simp]
      exact List.drop_left _ _
    simp only [hdrop]
    rw [if_pos ⟨trivial, trivial, trivial⟩]
    rw [if_pos (by simp)]
    rw [if_pos ⟨by simpa using hn, by simpa using hm, by rw [List.all_reverse]; exact hall⟩]
    simp
  · intro f n m h
    unfold parseRouteFileName at h
    split at h
    case h_2 => cases h
    case h_1 c1 c2 c3 revBody heq =>
      split at h
      case isFalse => cases h
      case isTrue hstc =>
        obtain ⟨hc1, hc2, hc3⟩ := hstc
        subst hc1
        subst hc2
        subst hc3
        split at h
        case isFalse => cases h
        case isTrue hlt =>
          split at h
          case isFalse => cases h
          case isTrue hcond =>
            obtain ⟨hname, hm0, hall0⟩ := hcond
            simp only [Option.some_inj, Prod.mk.injEq] at h
            obtain ⟨hn, hm⟩ := h
            obtain ⟨c, hdec, hpc⟩ := takeWhile_decomp _ revBody hlt
            have hc : c = '.' := by
              simpa using hpc
            subst hc
            have hfdata : f.data =
                (revBody.drop ((revBody.takeWhile (fun c => !(c == '.'))).length + 1)).reverse
                  ++ '.' :: ((revBody.takeWhile (fun c => !(c == '.'))).reverse
                  ++ ['.', 't', 's']) := by
              have h1 : f.data = f.data.reverse.reverse := by simp
              rw [h1, heq]
              conv_lhs => rw [hdec]
              simp
            have hfeq : f = n ++ "." ++ m ++ ".ts" := by
              apply String.ext
              rw [hfdata, ← hn, ← hm]
              simp [String.data_append]
            refine ⟨hfeq, ?_, ?_, ?_⟩
            · rw [← hn]
              exact hname
            · rw [← hm]
              simpa using hm0
            · rw [← hm]
              simpa [List.all_reverse] using hall0

/-- C4 witness: the characterization applied to `users.get.ts`. -/
theorem filename_grammar_characterization_witness :
    parseRouteFileName ("users" ++ "." ++ "get" ++ ".ts") = some ("users", "get") :=
  filename_grammar_characterization.1 "users" "get" (by decide) (by decide) (by decide)

/-!
Helpers for the error-isolation claim: as long as every directory of the
scanned subtree is readable, the scan returns normally whatever the file
payloads are (in particular with expectations modules whose load throws);
an unreadable directory makes the scan return the rethrown error.
-/

mutual
theorem scanNodeReadable_ok (fs : FSNode) (sd : List String) :
    (es : FSEntries) → entriesAllReadable es = true →
    ∀ d b c, ∃ rs c2, scanNode fs sd (.dir true es) d b c = (.ok rs, c2)
  | es, h, d, b, c => by
    simp only [scanNode]
    exact scanEntriesReadable_ok fs sd es h d b _ _ _

theorem scanEntriesReadable_ok (fs : FSNode) (sd : List String) :
    (es : FSEntries) → entriesAllReadable es = true →
    ∀ d b lm ex c, ∃ rs c2, scanEntries fs sd es d b lm ex c = (.ok rs, c2)
  | .nil, _, d, b, lm, ex, c => ⟨[], c, rfl⟩
  | .cons name (.dir rd es2) rest, h, d, b, lm, ex, c => by
    simp only [entriesAllReadable, nodeAllReadable, Bool.and_eq_true] at h
    obtain ⟨⟨hrd, hes2⟩, hrest⟩ := h
    subst hrd
    rw [scanEntries]
    by_cases hu : startsWithUnderscore name = true
    · rw [if_pos hu]
      exact scanEntriesReadable_ok fs sd rest hrest d b lm ex c
    · rw [if_neg hu]
      obtain ⟨sub, c2, hsub⟩ :=
        scanNodeReadable_ok fs sd es2 hes2 (d ++ [name]) (pathJoin b (stripGroup name)) c
      simp only [hsub]
      obtain ⟨more, c3, hmore⟩ := scanEntriesReadable_ok fs sd rest hrest d b lm ex c2
      simp only [hmore]
      exact ⟨sub ++ more, c3, rfl⟩
  | .cons name (.file dta) rest, h, d, b, lm, ex, c => by
    simp only [entriesAllReadable, nodeAllReadable, Bool.and_eq_true, true_and] at h
    rw [scanEntries]
    by_cases hu : startsWithUnderscore name = true
    · rw [if_pos hu]
      exact scanEntriesReadable_ok fs sd rest h d b lm ex c
    · rw [if_neg hu]
      by_cases ht : endsWithTs name = true
      · rw [if_pos ht]
        by_cases hs : name = "middleware.ts" ∨ name = "expectations.ts"
        · rw [if_pos hs]
          exact scanEntriesReadable_ok fs sd rest h d b lm ex c
        · rw [if_neg hs]
          obtain ⟨more, c2, hmore⟩ := scanEntriesReadable_ok fs sd rest h d b lm ex c
          simp only [hmore]
          cases parseRouteFile fs sd (d ++ [name]) b lm ex with
          | some r => exact ⟨r :: more, c2, rfl⟩
          | none => exact ⟨more, c2, rfl⟩
      · rw [if_neg ht]
        exact scanEntriesReadable_ok fs sd rest h d b lm ex c
end

/-- C6 (amended): an error loading a specific file is isolated — with all
directories readable, the scan of a readable directory always returns
normally, no matter which expectations modules fail to load (their
failures are logged and scanning continues with the remaining entries) —
but the error raised while reading an unreadable directory's entries is
rethrown out of the scan. -/
theorem scan_error_isolation (fs : FSNode) (sd : List String) (es : FSEntries)
    (d : List String) (b : String) (c : ExpCache)
    (h : entriesAllReadable es = true) :
    (∃ rs c2, scanNode fs sd (.dir true es) d b c = (.ok rs, c2))
    ∧ (∀ es2 d2 b2 c2, (scanNode fs sd (.dir false es2) d2 b2 c2).1 = .error ()) :=
  ⟨scanNodeReadable_ok fs sd es h d b c, fun _ _ _ _ => rfl⟩

/-- C6 witness: the tree with a malformed `src/expectations.ts` still scans
to a normal result, and the sibling route `src/list.get.ts` survives. -/
theorem scan_error_isolation_witness :
    (∃ rs c2, scanNode fsBadExpExample ["src"]
        (.dir true (.cons "expectations.ts" (.file none)
          (.cons "list.get.ts" (.file none) .nil)))
        ["src"] "" [] = (.ok rs, c2))
    ∧ (scanFS fsBadExpExample ["src"] ["src"] "" []).1 =
        .ok [{ path := "/list", method := "get",
               handlerPath := ["src", "list.get.ts"],
               middlewares := [], params := none, bodyExpected := none }] :=
  ⟨(scan_error_isolation fsBadExpExample ["src"]
      (.cons "expectations.ts" (.file none) (.cons "list.get.ts" (.file none) .nil))
      ["src"] "" [] (by decide)).1, rfl⟩

/-!
Helpers for the underscore invariant: every route a scan produces has a
handler path directly under the scanned directory whose added segments are
all free of the ignore marker.
-/

mutual
theorem scanNodeKeys (fs : FSNode) (sd : List String) :
    (node : FSNode) → ∀ d b c rs c2, scanNode fs sd node d b c = (.ok rs, c2) →
      ∀ r ∈ rs, ∃ rest, r.handlerPath = d ++ rest ∧ cleanSegs rest = true
  | .file dta, d, b, c, rs, c2, hh => by
    simp [scanNode] at hh
  | .dir false es, d, b, c, rs, c2, hh => by
    simp [scanNode] at hh
  | .dir true es, d, b, c, rs, c2, hh => by
    simp only [scanNode] at hh
    exact scanEntriesKeys fs sd es d b _ _ _ rs c2 hh

theorem scanEntriesKeys (fs : FSNode) (sd : List String) :
    (es : FSEntries) → ∀ d b lm ex c rs c2,
      scanEntries fs sd es d b lm ex c = (.ok rs, c2) →
      ∀ r ∈ rs, ∃ rest, r.handlerPath = d ++ rest ∧ cleanSegs rest = true
  | .nil, d, b, lm, ex, c, rs, c2, hh => by
    rw [scanEntries] at hh
    cases hh
    intro r hr
    simp at hr
  | .cons name (.dir rd es2) rest, d, b, lm, ex, c, rs, c2, hh => by
    rw [scanEntries] at hh
    by_cases hu : startsWithUnderscore name = true
    · rw [if_pos hu] at hh
      exact scanEntriesKeys fs sd rest d b lm ex c rs c2 hh
    · rw [if_neg hu] at hh
      have hu2 : startsWithUnderscore name = false := by
        revert hu
        cases startsWithUnderscore name <;> simp
      rcases hsn : scanNode fs sd (.dir rd es2) (d ++ [name]) (pathJoin b (stripGroup name)) c
        with ⟨res1, cc1⟩
      simp only [hsn] at hh
      cases res1 with
      | error e => simp at hh
      | ok sub =>
        rcases hse : scanEntries fs sd rest d b lm ex cc1 with ⟨res2, cc2⟩
        simp only [hse] at hh
        cases res2 with
        | error e => simp at hh
        | ok more =>
          simp only [Prod.mk.injEq, Except.ok.injEq] at hh
          obtain ⟨hrs, hcc⟩ := hh
          subst hrs
          intro r hr
          rcases List.mem_append.mp hr with hr1 | hr2
          · obtain ⟨rest2, hrp, hcl⟩ :=
              scanNodeKeys fs sd (.dir rd es2) (d ++ [name]) (pathJoin b (stripGroup name))
                c sub cc1 hsn r hr1
            refine ⟨name :: rest2, ?_, ?_⟩
            · rw [hrp]
              simp
            · simp only [cleanSegs, List.all_cons, Bool.and_eq_true]
              exact ⟨by simp [cleanSeg, hu2], hcl⟩
          · exact scanEntriesKeys fs sd rest d b lm ex cc1 more cc2 hse r hr2
  | .cons name (.file dta) rest, d, b, lm, ex, c, rs, c2, hh => by
    rw [scanEntries] at hh
    by_cases hu : startsWithUnderscore name = true
    · rw [if_pos hu] at hh
      exact scanEntriesKeys fs sd rest d b lm ex c rs c2 hh
    · rw [if_neg hu] at hh
      have hu2 : startsWithUnderscore name = false := by
        revert hu
        cases startsWithUnderscore name <;> simp
      by_cases ht : endsWithTs name = true
      · rw [if_pos ht] at hh
        by_cases hs : name = "middleware.ts" ∨ name = "expectations.ts"
        · rw [if_pos hs] at hh
          exact scanEntriesKeys fs sd rest d b lm ex c rs c2 hh
        · rw [if_neg hs] at hh
          rcases hse : scanEntries fs sd rest d b lm ex c with ⟨res2, cc2⟩
          simp only [hse] at hh
          cases res2 with
          | error e => simp at hh
          | ok more =>
            cases hp : parseRouteFile fs sd (d ++ [name]) b lm ex with
            | some r0 =>
              simp only [hp] at hh
              simp only [Prod.mk.injEq, Except.ok.injEq] at hh
              obtain ⟨hrs, hcc⟩ := hh
              subst hrs
              intro r hr
              rcases List.mem_cons.mp hr with hr1 | hr2
              · subst hr1
                refine ⟨[name], ?_, ?_⟩
                · exact (parseRouteFile_fields fs sd (d ++ [name]) b lm ex r hp).1
                · simp [cleanSegs, cleanSeg, hu2]
              · exact scanEntriesKeys fs sd rest d b lm ex c more cc2 hse r hr2
            | none =>
              simp only [hp] at hh
              simp only [Prod.mk.injEq, Except.ok.injEq] at hh
              obtain ⟨hrs, hcc⟩ := hh
              subst hrs
              exact fun r hr => scanEntriesKeys fs sd rest d b lm ex c more cc2 hse r hr
      · rw [if_neg ht] at hh
        exact scanEntriesKeys fs sd rest d b lm ex c rs c2 hh
end

/-- Helper: keys produced by one outside call of `scanDirectory`. -/
theorem scanFSKeys (fs : FSNode) (sd d : List String) (b : String) (c : ExpCache)
    (rs : List RouteDefinition) (c2 : ExpCache)
    (hh : scanFS fs sd d b c = (.ok rs, c2)) :
    ∀ r ∈ rs, ∃ rest, r.handlerPath = d ++ rest ∧ cleanSegs rest = true := by
  unfold scanFS at hh
  cases hl : lookupFS d fs with
  | none =>
    rw [hl] at hh
    cases hh
    intro r hr
    simp at hr
  | some node =>
    rw [hl] at hh
    exact scanNodeKeys fs sd node d b c rs c2 hh

/-- Helper: deleting entries preserves the key invariant. -/
theorem tableOk_filter (sd : List String) (t : RouteTable) (q : List String × RouteDefinition → Bool)
    (h : tableOk sd t) : tableOk sd (t.filter q) :=
  fun e he => h e (List.mem_of_mem_filter he)

/-- Helper: membership after `Map.set`. -/
theorem mem_tableSet (t : RouteTable) (k : List String) (v : RouteDefinition)
    (e : List String × RouteDefinition) (he : e ∈ tableSet t k v) : e.1 = k ∨ e ∈ t := by
  unfold tableSet at he
  by_cases hh : tableHas t k = true
  · rw [if_pos hh] at he
    obtain ⟨e0, he0, heq⟩ := List.mem_map.mp he
    by_cases hk : e0.1 = k
    · rw [if_pos hk] at heq
      left
      rw [← heq]
    · rw [if_neg hk] at heq
      right
      rw [← heq]
      exact he0
  · rw [if_neg hh] at he
    rcases List.mem_append.mp he with h1 | h2
    · right
      exact h1
    · left
      simp only [List.mem_singleton] at h2
      rw [h2]

/-- Helper: `Map.set` with a good key preserves the invariant. -/
theorem tableOk_set (sd : List String) (t : RouteTable) (k : List String)
    (v : RouteDefinition) (h : tableOk sd t) (hk : keyOk sd k) :
    tableOk sd (tableSet t k v) := by
  intro e he
  rcases mem_tableSet t k v e he with h1 | h2
  · rw [keyOk] at hk ⊢
    rw [h1]
    exact hk
  · exact h e h2

/-- Helper: bulk insertion of scanned routes preserves the invariant. -/
theorem tableOk_foldl (sd : List String) (rs : List RouteDefinition) :
    ∀ t, tableOk sd t → (∀ r ∈ rs, keyOk sd r.handlerPath) →
      tableOk sd (rs.foldl (fun t r => tableSet t r.handlerPath r) t) := by
  induction rs with
  | nil =>
    intro t ht _
    simpa using ht
  | cons r rs ih =>
    intro t ht hrs
    simp only [List.foldl_cons]
    exact ih _ (tableOk_set sd t _ r ht (hrs r (by simp)))
      (fun r2 h2 => hrs r2 (by simp [h2]))

/-- Helper: dropping the last segment keeps a suffix clean. -/
theorem cleanSegs_dropLast (l : List String) (h : cleanSegs l = true) :
    cleanSegs l.dropLast = true := by
  simp only [cleanSegs, List.all_eq_true] at h ⊢
  intro x hx
  exact h x ((List.dropLast_sublist l).subset hx)

/-- Helper: `rebuildDirectoryRoutes` on a clean directory under the root
preserves the invariant, on both its normal and its throwing path. -/
theorem rebuild_tableOk (fs : FSNode) (sd : List String) (st : BuilderState)
    (d : List String) (hst : tableOk sd st.routes)
    (hd : ∃ pre, d = sd ++ pre ∧ cleanSegs pre = true) :
    tableOk sd ((rebuildDirectoryRoutes fs sd st d).1.routes) := by
  unfold rebuildDirectoryRoutes
  rcases hscan : scanFS fs sd d "" st.expCache with ⟨res, cc⟩
  cases res with
  | error e =>
    simp only [hscan]
    exact tableOk_filter sd st.routes _ hst
  | ok rs =>
    simp only [hscan]
    obtain ⟨pre, hpre, hclean⟩ := hd
    apply tableOk_foldl
    · exact tableOk_filter sd st.routes _ hst
    · intro r hr
      obtain ⟨rest, hrp, hcl⟩ := scanFSKeys fs sd d "" st.expCache rs cc hscan r hr
      refine ⟨pre ++ rest, ?_, ?_⟩
      · rw [hrp, hpre]
        simp
      · simp only [cleanSegs, List.all_append, Bool.and_eq_true]
        exact ⟨hclean, hcl⟩

/-- Helper: any add/change reaction for an admissible path preserves the
invariant. -/
theorem fileChange_tableOk (fs : FSNode) (sd : List String) (st : BuilderState)
    (p : List String) (hst : tableOk sd st.routes)
    (hadm : ∃ rest, p = sd ++ rest ∧ cleanSegs rest = true ∧ rest ≠ []) :
    tableOk sd ((handleFileChange fs sd st p).1.routes) := by
  obtain ⟨rest, hp, hclean, hne⟩ := hadm
  have hdir : ∃ pre, p.dropLast = sd ++ pre ∧ cleanSegs pre = true := by
    refine ⟨rest.dropLast, ?_, cleanSegs_dropLast rest hclean⟩
    rw [hp]
    exact List.dropLast_append_of_ne_nil sd hne
  unfold handleFileChange
  by_cases h1 : basename p = "middleware.ts"
  · rw [if_pos h1]
    exact rebuild_tableOk fs sd st p.dropLast hst hdir
  · rw [if_neg h1]
    by_cases h2 : basename p = "expectations.ts"
    · rw [if_pos h2]
      exact rebuild_tableOk fs sd
        { st with expCache := cacheDelete st.expCache p.dropLast } p.dropLast hst hdir
    · rw [if_neg h2]
      cases hpr : parseRouteFile fs sd p "" none none with
      | none => exact hst
      | some r =>
        exact tableOk_set sd st.routes p r hst ⟨rest, hp, hclean⟩

/-- Helper: one watcher event preserves the invariant. -/
theorem step_tableOk (fs : FSNode) (sd : List String) (st : BuilderState) (ev : FSEvent)
    (hst : tableOk sd st.routes) (hev : admissible sd ev) :
    tableOk sd ((step fs sd st ev).1.routes) := by
  cases ev with
  | add p =>
    obtain ⟨rest, hp, hclean, hne⟩ := hev
    exact fileChange_tableOk fs sd st p hst ⟨rest, hp, hclean, hne rfl⟩
  | change p =>
    obtain ⟨rest, hp, hclean, hne⟩ := hev
    exact fileChange_tableOk fs sd st p hst ⟨rest, hp, hclean, hne rfl⟩
  | unlink p =>
    simp only [step]
    unfold handleFileRemoval
    by_cases hh : tableHas st.routes p = true
    · rw [if_pos hh]
      exact tableOk_filter sd st.routes _ hst
    · rw [if_neg hh]
      exact hst
  | unlinkDir p =>
    simp only [step]
    unfold handleDirectoryRemoval
    exact tableOk_filter sd st.routes _ hst

/-- Helper: a whole admissible event sequence preserves the invariant. -/
theorem runEvents_tableOk (sd : List String) (evs : List (FSNode × FSEvent)) :
    ∀ st, tableOk sd st.routes → (∀ pr ∈ evs, admissible sd pr.2) →
      tableOk sd ((runEvents sd evs st).routes) := by
  induction evs with
  | nil =>
    intro st h _
    simpa [runEvents] using h
  | cons pr rest ih =>
    intro st h hadm
    have hstep := step_tableOk pr.1 sd st pr.2 h (hadm pr (by simp))
    exact ih _ hstep (fun pr2 h2 => hadm pr2 (by simp [h2]))

/-- Helper: the initial full build establishes the invariant. -/
theorem buildRoutes_tableOk (fs : FSNode) (sd : List String) (st : BuilderState)
    (hst : tableOk sd st.routes) :
    tableOk sd ((buildRoutes fs sd st).1.routes) := by
  unfold buildRoutes
  rcases hscan : scanFS fs sd sd "" st.expCache with ⟨res, cc⟩
  cases res with
  | error e =>
    simp only [hscan]
    exact hst
  | ok rs =>
    simp only [hscan]
    apply tableOk_foldl
    · intro e he
      simp at he
    · intro r hr
      exact scanFSKeys fs sd sd "" st.expCache rs cc hscan r hr

/-- C8: for every filesystem snapshot sequence and every sequence of
watcher-deliverable events, every key of the route table reached from a
fresh builder (initial scan followed by the events) lies under the source
root with no segment beneath it starting with `_` — an entry with a
leading-underscore name, or any file beneath such a directory, never
appears in the table. -/
theorem no_underscore_in_table (fs0 : FSNode) (sd : List String)
    (evs : List (FSNode × FSEvent)) (hevs : ∀ pr ∈ evs, admissible sd pr.2) :
    ∀ e ∈ (runEvents sd evs (buildRoutes fs0 sd initialState).1).routes,
      ∃ rest, e.1 = sd ++ rest ∧ cleanSegs rest = true :=
  runEvents_tableOk sd evs (buildRoutes fs0 sd initialState).1
    (buildRoutes_tableOk fs0 sd initialState (fun e he => by simp [initialState] at he))
    hevs

/-- C8 witness: after a concrete initial scan plus one add event, the
invariant instance for the one stored table entry. -/
theorem no_underscore_in_table_witness :
    ∃ rest, (["src", "list.get.ts"] : List String) = ["src"] ++ rest ∧ cleanSegs rest = true :=
  no_underscore_in_table fsSmallExample ["src"]
    [(fsSmallExample, FSEvent.add ["src", "list.get.ts"])]
    (fun pr hpr => by
      simp only [List.mem_singleton] at hpr
      subst hpr
      exact ⟨["list.get.ts"], rfl, by decide, fun _ => by decide⟩)
    (["src", "list.get.ts"],
     { path := "/list", method := "get", handlerPath := ["src", "list.get.ts"],
       middlewares := [], params := none, bodyExpected := none })
    (by decide)
